import Mathlib

/-!
# Verification of `uploadImgCloudPlugin` (src/src/index.ts)

A shallow embedding of the rsbuild plugin in `src/src/index.ts`.  The plugin
registers a transform hook that records image resource paths in a
`Map<string, string>` (`imageUrlMap`), and a `processAssets` callback that

1. uploads every emitted image asset to Tencent COS (sequentially, awaited
   one at a time, per-file `try`/`catch`),
2. correlates each emitted image filename with a recorded resource path by
   the substring heuristic at lines 182-198 and stores the CDN URL, and
3. rewrites quoted references in emitted script files using the regex
   `["']([^"']*imgFileName)["']` (line 239), updating an asset only when its
   content changed.

Strings are modelled as Lean `String` (a structure over `List Char`); the
side effects of the callback are recorded in an explicit event trace (`Ev`).
The MD5 hash of `crypto.createHash('md5')` and the success of
`cosClient.putObject` are opaque external collaborators and are passed in as
function parameters.
-/

set_option autoImplicit false

namespace UploadImg

/-- Boolean test that `a` is a (character-wise) list-prefix of `b`. -/
def prefixEq : List Char → List Char → Bool
  | [], _ => true
  | _ :: _, [] => false
  | a :: as, b :: bs => a == b && prefixEq as bs

/-- Boolean test that `needle` occurs contiguously inside `hay`; this models
JavaScript `hay.includes(needle)` (used at lines 185-186 of index.ts). -/
def infixIn (needle : List Char) : List Char → Bool
  | [] => needle.isEmpty
  | c :: rest => prefixEq needle (c :: rest) || infixIn needle rest

/-- `hay.includes(needle)` on `String`. -/
def sIncludes (hay needle : String) : Bool := infixIn needle.data hay.data

/-- Boolean test that `suf` is a suffix of `s` (models the anchored regex
tests `/...$/` of index.ts). -/
def sEndsWith (s suf : String) : Bool := prefixEq suf.data.reverse s.data.reverse

def isSlash (c : Char) : Bool := c == '/'

/-- `path.basename` for POSIX paths: strip trailing slashes, then keep the
part after the last remaining slash (lines 125, 185-186, 229 of index.ts). -/
def basenameL (s : List Char) : List Char :=
  ((s.reverse.dropWhile isSlash).takeWhile (fun c => !(isSlash c))).reverse

def basename (s : String) : String := String.mk (basenameL s.data)

/-- `path.extname`: the extension of the basename, from its last dot, empty
when there is no dot or the only dot leads the name (line 134 of index.ts). -/
def extnameL (s : List Char) : List Char :=
  let b := basenameL s
  let tail := b.reverse.takeWhile (fun c => !(c == '.'))
  if tail.length + 1 < b.length then '.' :: tail.reverse else []

def extname (s : String) : String := String.mk (extnameL s.data)

/-- The image filter `/\.(png|jpe?g|gif|svg|webp)$/` of lines 66 and 114. -/
def isImageName (f : String) : Bool :=
  sEndsWith f ".png" || sEndsWith f ".jpg" || sEndsWith f ".jpeg" ||
    sEndsWith f ".gif" || sEndsWith f ".svg" || sEndsWith f ".webp"

/-- The script filter `/\.(j|t)s(x)$/` of line 220.  Note that the `(x)`
group is not optional in the source regex, so only `.jsx` and `.tsx` match. -/
def isScriptName (f : String) : Bool :=
  sEndsWith f ".jsx" || sEndsWith f ".tsx"

/-! ## The `imageUrlMap` (line 62): a JavaScript `Map<string, string>`,
modelled as an insertion-ordered association list. -/

abbrev UMap := List (String × String)

/-- `Map.set`: update in place when the key exists, else append. -/
def mapSet (k v : String) : UMap → UMap
  | [] => [(k, v)]
  | (k', v') :: rest => if k' == k then (k, v) :: rest else (k', v') :: mapSet k v rest

/-- `Map.get`: the value stored at `k`, if any. -/
def mapLookup (k : String) : UMap → Option String
  | [] => none
  | (k', v') :: rest => if k' == k then some v' else mapLookup k rest

/-- The initial value of `imageUrlMap` at plugin setup (line 62). -/
def initialImageUrlMap : UMap := []

/-! ## The replacement regex of line 239

`new RegExp(`["']([^"']*imgFileName)["']`, 'g')`, where `imgFileName` is
interpolated without escaping: the dots of a file name act as regex
wildcards.  A pattern is therefore a list of single-character matchers. -/

inductive CPat where
  | lit (c : Char)
  | anyc
  deriving DecidableEq

/-- The pattern obtained by interpolating a file name into the regex: a
literal dot becomes the wildcard `.`, everything else matches itself (the
file names handled by the plugin contain no other regex metacharacters). -/
def patOf : List Char → List CPat :=
  List.map (fun c => if c == '.' then CPat.anyc else CPat.lit c)

def isQuote (c : Char) : Bool := c == '"' || c == Char.ofNat 39

/-- Match a pattern against the front of a string, returning the rest. -/
def matchPat : List CPat → List Char → Option (List Char)
  | [], rest => some rest
  | _ :: _, [] => none
  | CPat.anyc :: ps, _ :: cs => matchPat ps cs
  | CPat.lit a :: ps, c :: cs => if a == c then matchPat ps cs else none

/-- One backtracking step of the greedy `[^"']*` group: with `k` characters
consumed by the group, the pattern and a closing quote must follow; on
failure retry with a shorter group, as a regex engine does. -/
def checkAt (pat : List CPat) (body : List Char) (k : Nat) : Option Nat :=
  match matchPat pat (body.drop k) with
  | some (c :: _) => if isQuote c then some (k + pat.length + 1) else none
  | _ => none

def tryFrom (pat : List CPat) (body : List Char) : Nat → Option Nat
  | 0 => checkAt pat body 0
  | k + 1 =>
    match checkAt pat body (k + 1) with
    | some r => some r
    | none => tryFrom pat body k

/-- Attempt to match `["']([^"']*pat)["']` with opening quote `c` and the
remaining input `body`; returns the number of characters of `body` consumed
(group, pattern and closing quote). -/
def matchBody (pat : List CPat) (c : Char) (body : List Char) : Option Nat :=
  if isQuote c then
    tryFrom pat body ((body.takeWhile (fun x => !(isQuote x))).length)
  else none

/-- Global regex replacement: scan left to right, replace each
non-overlapping match with `"url"`, resume after the match.  `fuel` bounds
the recursion; with `fuel = s.length` it is never exhausted because every
step consumes at least one character. -/
def replaceScanFuel (pat : List CPat) (url : List Char) : Nat → List Char → List Char
  | 0, s => s
  | _ + 1, [] => []
  | fuel + 1, c :: rest =>
    match matchBody pat c rest with
    | some m => '"' :: (url ++ '"' :: replaceScanFuel pat url fuel (rest.drop m))
    | none => c :: replaceScanFuel pat url fuel rest

/-- `content.replace(regex, `"cdnUrl"`)` of line 240. -/
def replaceRefs (imgFileName cdnUrl content : String) : String :=
  String.mk (replaceScanFuel (patOf imgFileName.data) cdnUrl.data content.data.length content.data)

/-- Whether the regex of line 239 matches anywhere in `s` (used to state
that a script contains no quoted reference to an image). -/
def hasMatchFuel (pat : List CPat) : Nat → List Char → Bool
  | 0, _ => false
  | _ + 1, [] => false
  | fuel + 1, c :: rest => (matchBody pat c rest).isSome || hasMatchFuel pat fuel rest

def hasMatchStr (imgFileName s : String) : Bool :=
  hasMatchFuel (patOf imgFileName.data) s.data.length s.data

/-! ## Plugin options (the `uploadImgCloudPluginType` of lines 6-51) -/

structure CosConf where
  SecretId : String
  SecretKey : String
  Bucket : String
  Region : String
  deriving DecidableEq

structure OssConf where
  accessKeyId : String
  accessKeySecret : String
  bucket : String
  region : String
  deriving DecidableEq

structure PluginOptions where
  cos : Option CosConf
  oss : Option OssConf
  cdnBaseUrl : Option String
  uploadInDev : Option Bool
  /-- The `pathPrefix` option of the source (renamed here). -/
  pathPrefixOpt : Option String
  keepFilename : Option Bool
  verbose : Option Bool
  deriving DecidableEq

/-- `options.pathPrefix || 'images/'` (line 107): JavaScript `||` also
replaces the empty string by the default. -/
def pathPrefixOf (opts : PluginOptions) : String :=
  match opts.pathPrefixOpt with
  | some s => if s == "" then "images/" else s
  | none => "images/"

/-- `options.keepFilename !== false` (line 108). -/
def keepFilenameOf (opts : PluginOptions) : Bool := !(opts.keepFilename == some false)

/-- `shouldSkipUpload` (lines 89-90): no cloud storage configured, or a dev
build without `uploadInDev` (an absent `uploadInDev` is falsy). -/
def shouldSkipUpload (opts : PluginOptions) (isDev : Bool) : Bool :=
  (opts.cos.isNone && opts.oss.isNone) || (isDev && !(opts.uploadInDev == some true))

/-- Lines 80-86: the COS client exists exactly when `options.cos` does. -/
def cosClientOf (opts : PluginOptions) : Bool := opts.cos.isSome

/-- The key on COS (lines 122-136).  `h` stands for the hex MD5 digest of
`crypto.createHash('md5').update(content)`; the source keeps its first 8
characters. -/
def cosPathOf (opts : PluginOptions) (h : String → String) (filename content : String) : String :=
  if keepFilenameOf opts then pathPrefixOf opts ++ basename filename
  else pathPrefixOf opts ++ (h content).take 8 ++ extname filename

/-- `base.replace(/\/$/, '')` (line 168): drop one trailing slash. -/
def stripOneTrailingSlash (s : String) : String :=
  match s.data.reverse with
  | '/' :: rest => String.mk rest.reverse
  | _ => s

def defaultCosUrl (cos : CosConf) (cosPath : String) : String :=
  "https://" ++ cos.Bucket ++ ".cos." ++ cos.Region ++ ".myqcloud.com/" ++ cosPath

/-- The CDN URL built after a successful upload (lines 166-169); an empty
`cdnBaseUrl` is falsy and falls back to the default COS URL. -/
def cdnUrlOf (opts : PluginOptions) (cos : CosConf) (cosPath : String) : String :=
  match opts.cdnBaseUrl with
  | some base =>
    if base == "" then defaultCosUrl cos cosPath
    else stripOneTrailingSlash base ++ "/" ++ cosPath
  | none => defaultCosUrl cos cosPath

/-! ## The transform hook (lines 65-77) -/

structure TransformCtx where
  code : String
  resourcePath : String
  deriving DecidableEq

/-- The transform callback: record `info.resourcePath` in the map with the
empty-string value, log, and return `info` unchanged. -/
def transformHook (m : UMap) (info : TransformCtx) : UMap × TransformCtx :=
  (mapSet info.resourcePath "" m, info)

/-- A sequence of transform-hook invocations starting from a map. -/
def runTransforms : List TransformCtx → UMap → UMap
  | [], m => m
  | i :: is, m => runTransforms is (transformHook m i).1

/-! ## The `processAssets` callback (lines 98-263), with its side effects
recorded as an event trace. -/

inductive Ev where
  /-- `putObject` is invoked for `filename` with key `cosPath` (line 140). -/
  | upStart (filename cosPath : String)
  /-- the upload promise resolves (line 160). -/
  | upOk (filename : String)
  /-- the upload promise rejects (line 153). -/
  | upErr (filename : String)
  /-- the per-file `catch` logs the error (lines 209-214). -/
  | errLog (filename : String)
  /-- `compilation.updateAsset(filename, source)` (line 254). -/
  | update (filename content : String)
  deriving DecidableEq

/-- The substring heuristic of lines 184-187 that correlates an emitted
image `filename` with a recorded resource path `orig`. -/
def matchCond (filename orig : String) : Bool :=
  sIncludes orig (basename filename) || sIncludes filename (basename orig)

/-- The loop of lines 182-198: the first recorded path satisfying the
heuristic, if any. -/
def findMatch (filename : String) : UMap → Option String
  | [] => none
  | (orig, _) :: rest =>
    if matchCond filename orig then some orig else findMatch filename rest

/-- Lines 179-208: store the CDN URL under the first matching recorded
path, or under the emitted filename when no recorded path matches. -/
def recordUrl (filename cdnUrl : String) (m : UMap) : UMap :=
  match findMatch filename m with
  | some orig => mapSet orig cdnUrl m
  | none => mapSet filename cdnUrl m

/-- The body of the `try` block for one image asset (lines 115-208).  `ok`
is the verdict of the external `putObject` call; a rejected upload makes
the awaited promise throw, modelled as `Except.error` (events emitted
before the throw are kept). -/
def uploadTryBody (opts : PluginOptions) (cos : CosConf) (h : String → String)
    (ok : Bool) (filename content : String) (m : UMap) :
    List Ev × Except String UMap :=
  if content == "" then ([], Except.ok m)
  else
    let cosPath := cosPathOf opts h filename content
    if ok then
      ([Ev.upStart filename cosPath, Ev.upOk filename],
        Except.ok (recordUrl filename (cdnUrlOf opts cos cosPath) m))
    else
      ([Ev.upStart filename cosPath, Ev.upErr filename], Except.error filename)

/-- The upload loop of lines 112-216: for every emitted asset matching the
image filter, run the `try` body; a thrown error is caught, logged, and the
loop continues with the remaining assets and the unchanged map. -/
def uploadLoop (opts : PluginOptions) (cos : CosConf) (h : String → String)
    (uOk : String → Bool) : List (String × String) → UMap → List Ev × UMap
  | [], m => ([], m)
  | (filename, content) :: rest, m =>
    if isImageName filename then
      match uploadTryBody opts cos h (uOk filename) filename content m with
      | (evs, Except.ok m') =>
        let next := uploadLoop opts cos h uOk rest m'
        (evs ++ next.1, next.2)
      | (evs, Except.error _) =>
        let next := uploadLoop opts cos h uOk rest m
        (evs ++ Ev.errLog filename :: next.1, next.2)
    else uploadLoop opts cos h uOk rest m

/-- The inner replacement fold of lines 225-248 over the map entries,
threading the content and the `hasChanges` flag. -/
def rewriteFoldAux : UMap → String → Bool → String × Bool
  | [], c, ch => (c, ch)
  | (imgPath, cdnUrl) :: rest, c, ch =>
    if cdnUrl == "" then rewriteFoldAux rest c ch
    else
      let nc := replaceRefs (basename imgPath) cdnUrl c
      if nc == c then rewriteFoldAux rest c ch else rewriteFoldAux rest nc true

def rewriteFold (m : UMap) (c : String) : String × Bool := rewriteFoldAux m c false

/-- The same fold, also keeping the `verbose` log lines emitted at lines
231-235; the functional result is independent of `verbose`. -/
def rewriteFoldLogAux (verbose : Bool) :
    UMap → String → Bool → List String → (String × Bool) × List String
  | [], c, ch, logs => ((c, ch), logs)
  | (imgPath, cdnUrl) :: rest, c, ch, logs =>
    if cdnUrl == "" then rewriteFoldLogAux verbose rest c ch logs
    else
      let logs' := if verbose then
        logs ++ ["replace " ++ basename imgPath ++ " -> " ++ cdnUrl] else logs
      let nc := replaceRefs (basename imgPath) cdnUrl c
      if nc == c then rewriteFoldLogAux verbose rest c ch logs'
      else rewriteFoldLogAux verbose rest nc true logs'

def rewriteFoldLog (verbose : Bool) (m : UMap) (c : String) : (String × Bool) × List String :=
  rewriteFoldLogAux verbose m c false []

/-- The replacement loop of lines 219-261: for every emitted `.jsx`/`.tsx`
asset with truthy content, fold the map over its content and call
`updateAsset` only when `hasChanges` is set. -/
def rewriteLoop (m : UMap) : List (String × String) → List Ev
  | [] => []
  | (filename, content) :: rest =>
    if isScriptName filename && content != "" then
      let rc := rewriteFold m content
      if rc.2 then Ev.update filename rc.1 :: rewriteLoop m rest
      else rewriteLoop m rest
    else rewriteLoop m rest

/-- The whole `processAssets` callback (lines 98-263).  `assets` is
`Object.entries(assets)` with each asset's `source()` as a string; `m` is
the `imageUrlMap` populated by the transform hook.  The result is the event
trace and the final map; `Except.error` would be an uncaught rejection of
the async callback. -/
def processAssets (opts : PluginOptions) (isDev : Bool) (h : String → String)
    (uOk : String → Bool) (assets : List (String × String)) (m : UMap) :
    Except String (List Ev × UMap) :=
  if shouldSkipUpload opts isDev || !(cosClientOf opts) || opts.cos.isNone then
    Except.ok ([], m)
  else
    match opts.cos with
    | none => Except.ok ([], m)
    | some cos =>
      let up := uploadLoop opts cos h uOk assets m
      Except.ok (up.1 ++ rewriteLoop up.2 assets, up.2)

/-! ## Helper lemmas -/

theorem mapLookup_set_self (k v : String) (m : UMap) :
    mapLookup k (mapSet k v m) = some v := by
  induction m with
  | nil => simp [mapSet, mapLookup]
  | cons p rest ih =>
    obtain ⟨k', v'⟩ := p
    by_cases h : k' = k
    · subst h; simp [mapSet, mapLookup]
    · simp [mapSet, mapLookup, h, ih]

theorem mapLookup_set_ne (k k' v : String) (m : UMap) (hne : k' ≠ k) :
    mapLookup k' (mapSet k v m) = mapLookup k' m := by
  induction m with
  | nil => simp [mapSet, mapLookup, Ne.symm hne]
  | cons p rest ih =>
    obtain ⟨k₀, v₀⟩ := p
    by_cases h : k₀ = k
    · subst h
      simp [mapSet, mapLookup, Ne.symm hne]
    · simp [mapSet, mapLookup, h, ih]

theorem mapSet_notMem (k v : String) (m : UMap) (h : ∀ p ∈ m, p.1 ≠ k) :
    mapSet k v m = m ++ [(k, v)] := by
  induction m with
  | nil => simp [mapSet]
  | cons p rest ih =>
    obtain ⟨k₀, v₀⟩ := p
    have hk₀ : k₀ ≠ k := h (k₀, v₀) (List.mem_cons_self _ _)
    simp only [mapSet, beq_iff_eq, if_neg hk₀, List.cons_append, List.cons.injEq, true_and]
    exact ih (fun p hp => h p (List.mem_cons_of_mem _ hp))

theorem mem_mapSet (k v : String) (m : UMap) (p : String × String)
    (hp : p ∈ mapSet k v m) : p = (k, v) ∨ p ∈ m := by
  induction m with
  | nil => simpa [mapSet] using hp
  | cons q rest ih =>
    obtain ⟨k₀, v₀⟩ := q
    by_cases h : k₀ = k
    · subst h
      simp only [mapSet, beq_self_eq_true, if_pos] at hp
      rcases List.mem_cons.mp hp with h' | h'
      · exact Or.inl h'
      · exact Or.inr (List.mem_cons_of_mem _ h')
    · simp only [mapSet, beq_iff_eq, if_neg h] at hp
      rcases List.mem_cons.mp hp with h' | h'
      · exact Or.inr (h' ▸ List.mem_cons_self _ _)
      · rcases ih h' with h'' | h''
        · exact Or.inl h''
        · exact Or.inr (List.mem_cons_of_mem _ h'')

theorem prefixEq_append (b r : List Char) : prefixEq b (b ++ r) = true := by
  induction b with
  | nil => rfl
  | cons c b ih => simp [prefixEq, ih]

theorem infixIn_append (l b r : List Char) : infixIn b (l ++ b ++ r) = true := by
  induction l with
  | nil =>
    cases b with
    | nil =>
      cases r with
      | nil => rfl
      | cons c r' => simp [infixIn, prefixEq]
    | cons x b' => simp [infixIn, prefixEq, prefixEq_append]
  | cons c l' ih =>
    simp only [List.cons_append, infixIn, Bool.or_eq_true]
    right
    simpa [List.append_assoc] using ih

theorem basename_decomp (s : String) :
    ∃ l r : List Char, s.data = l ++ (basename s).data ++ r := by
  refine ⟨((s.data.reverse.dropWhile isSlash).dropWhile (fun c => !(isSlash c))).reverse,
    (s.data.reverse.takeWhile isSlash).reverse, ?_⟩
  have hdata : (basename s).data = basenameL s.data := rfl
  rw [hdata]
  unfold basenameL
  conv_lhs => rw [← s.data.reverse_reverse]
  rw [← List.takeWhile_append_dropWhile (p := isSlash) (l := s.data.reverse)]
  rw [← List.takeWhile_append_dropWhile (p := fun c => !(isSlash c))
    (l := s.data.reverse.dropWhile isSlash)]
  simp only [List.reverse_append, List.append_assoc]
  simp [List.takeWhile_append_dropWhile]

theorem sIncludes_basename_self (s : String) : sIncludes s (basename s) = true := by
  obtain ⟨l, r, h⟩ := basename_decomp s
  unfold sIncludes
  rw [h]
  exact infixIn_append l (basename s).data r

theorem matchCond_self (f : String) : matchCond f f = true := by
  simp [matchCond, sIncludes_basename_self]

theorem findMatch_first (f k v : String) (m₁ m₂ : UMap)
    (hall : ∀ p ∈ m₁, matchCond f p.1 = false) (hk : matchCond f k = true) :
    findMatch f (m₁ ++ (k, v) :: m₂) = some k := by
  induction m₁ with
  | nil => simp [findMatch, hk]
  | cons p rest ih =>
    obtain ⟨k₀, v₀⟩ := p
    have h₀ : matchCond f k₀ = false := hall (k₀, v₀) (List.mem_cons_self _ _)
    simp [findMatch, h₀, ih (fun p hp => hall p (List.mem_cons_of_mem _ hp))]

theorem findMatch_allFalse (f : String) (m : UMap)
    (h : ∀ p ∈ m, matchCond f p.1 = false) : findMatch f m = none := by
  induction m with
  | nil => rfl
  | cons p rest ih =>
    obtain ⟨k₀, v₀⟩ := p
    have h₀ : matchCond f k₀ = false := h (k₀, v₀) (List.mem_cons_self _ _)
    simp [findMatch, h₀, ih (fun p hp => h p (List.mem_cons_of_mem _ hp))]

theorem findMatch_split (f : String) (m : UMap) :
    (∃ k v m₁ m₂, m = m₁ ++ (k, v) :: m₂ ∧ matchCond f k = true ∧
      ∀ p ∈ m₁, matchCond f p.1 = false) ∨
    (∀ p ∈ m, matchCond f p.1 = false) := by
  induction m with
  | nil => exact Or.inr (by simp)
  | cons p rest ih =>
    obtain ⟨k₀, v₀⟩ := p
    by_cases h : matchCond f k₀ = true
    · exact Or.inl ⟨k₀, v₀, [], rest, by simp, h, by simp⟩
    · have h' : matchCond f k₀ = false := by simpa using h
      rcases ih with ⟨k, v, m₁, m₂, heq, hk, hall⟩ | hall
      · refine Or.inl ⟨k, v, (k₀, v₀) :: m₁, m₂, by rw [heq]; rfl, hk, ?_⟩
        intro p hp
        rcases List.mem_cons.mp hp with rfl | hp'
        · exact h'
        · exact hall p hp'
      · refine Or.inr ?_
        intro p hp
        rcases List.mem_cons.mp hp with rfl | hp'
        · exact h'
        · exact hall p hp'

/-! ## Concrete fixtures used by witnesses and counterexamples -/

def cosC : CosConf := { SecretId := "id", SecretKey := "key", Bucket := "bkt", Region := "rgn" }

def optsC : PluginOptions :=
  { cos := some cosC, oss := none, cdnBaseUrl := some "https://cdn.example.com",
    uploadInDev := none, pathPrefixOpt := none, keepFilename := none, verbose := none }

def h0 : String → String := fun _ => "0123456789abcdef"

/-! ## Claims -/

/-- Claim C1, counterexample: the transform hook recorded the resource path
`/src/assets/logo.png`; the emitted (fingerprinted) asset is
`static/img/logo.abc12345.png` and its upload succeeds.  The substring
heuristic fails in both directions, so no recorded pre-transform path is
correlated with the emitted filename: the recorded path keeps the empty
value and the CDN URL is stored under the emitted filename instead, refuting
the claim that correlation succeeds even when the names differ by
fingerprinting. -/
theorem c1_counterexample :
    processAssets optsC false h0 (fun _ => true)
        [("static/img/logo.abc12345.png", "IMG")] [("/src/assets/logo.png", "")]
      = Except.ok
          ([Ev.upStart "static/img/logo.abc12345.png" "images/logo.abc12345.png",
            Ev.upOk "static/img/logo.abc12345.png"],
           [("/src/assets/logo.png", ""),
            ("static/img/logo.abc12345.png",
              "https://cdn.example.com/images/logo.abc12345.png")]) ∧
    matchCond "static/img/logo.abc12345.png" "/src/assets/logo.png" = false := by
  exact ⟨rfl, rfl⟩

/-- Claim C1, amended: after a successful upload of an emitted image
`f`, the plugin stores the CDN URL under the first recorded path that
satisfies the substring heuristic (`matchCond`), when one exists; when no
recorded path satisfies it (as happens when fingerprinting renames the
file), the emitted filename itself is appended to the map with the CDN URL
instead of any pre-transform path. -/
theorem c1_theorem (f url : String) (m : UMap) :
    (∃ k v m₁ m₂, m = m₁ ++ (k, v) :: m₂ ∧ matchCond f k = true ∧
        (∀ p ∈ m₁, matchCond f p.1 = false) ∧
        mapLookup k (recordUrl f url m) = some url) ∨
    ((∀ p ∈ m, matchCond f p.1 = false) ∧ recordUrl f url m = m ++ [(f, url)]) := by
  rcases findMatch_split f m with ⟨k, v, m₁, m₂, heq, hk, hall⟩ | hall
  · refine Or.inl ⟨k, v, m₁, m₂, heq, hk, hall, ?_⟩
    have hfind : findMatch f m = some k := heq ▸ findMatch_first f k v m₁ m₂ hall hk
    simp [recordUrl, hfind, mapLookup_set_self]
  · refine Or.inr ⟨hall, ?_⟩
    have hfind : findMatch f m = none := findMatch_allFalse f m hall
    have hnot : ∀ p ∈ m, p.1 ≠ f := by
      intro p hp hpf
      have h := hall p hp
      rw [hpf, matchCond_self f] at h
      exact absurd h (by simp)
    simp [recordUrl, hfind, mapSet_notMem f url m hnot]

/-- Claim C2, evaluation at the failing input: the image `logo.png` is
uploaded and its CDN URL stored, and both `main.js` and `main.jsx` contain
the quoted reference `"assets/logo.png"` ending in the image's basename.
The script filter `/\.(j|t)s(x)$/` (line 220) requires the trailing `x`, so
`main.js` is not recognised as a script file and is never rewritten or
updated, while the identical `main.jsx` is; this contradicts the claim (and
the comment at line 218 announcing replacement in JS files). -/
theorem c2_theorem :
    isScriptName "main.js" = false ∧ isScriptName "main.jsx" = true ∧
    processAssets optsC false h0 (fun _ => true)
        [("logo.png", "IMG"),
         ("main.js", "const a=\"assets/logo.png\";"),
         ("main.jsx", "const a=\"assets/logo.png\";")]
        [("/src/assets/logo.png", "")]
      = Except.ok
          ([Ev.upStart "logo.png" "images/logo.png",
            Ev.upOk "logo.png",
            Ev.update "main.jsx" "const a=\"https://cdn.example.com/images/logo.png\";"],
           [("/src/assets/logo.png", "https://cdn.example.com/images/logo.png")]) :=
  ⟨rfl, rfl, rfl⟩

/-! ## Trace observations -/

def isUpdateEv : Ev → Bool
  | Ev.update _ _ => true
  | _ => false

/-- A trace consists of complete upload attempts, one after the other: each
`putObject` start is immediately followed by its own settlement (resolve,
or reject followed by the catch log) before the next start appears. -/
def uploadsPhase : List Ev → Bool
  | [] => true
  | Ev.upStart f _ :: Ev.upOk g :: rest => f == g && uploadsPhase rest
  | Ev.upStart f _ :: Ev.upErr g :: Ev.errLog g' :: rest =>
    f == g && (g == g' && uploadsPhase rest)
  | _ => false

/-- The number of `putObject` invocations for `f` in a trace. -/
def countUpStart (f : String) : List Ev → Nat
  | [] => 0
  | Ev.upStart g _ :: rest => (if g = f then 1 else 0) + countUpStart f rest
  | _ :: rest => countUpStart f rest

theorem processAssets_ok (opts : PluginOptions) (isDev : Bool) (h : String → String)
    (uOk : String → Bool) (assets : List (String × String)) (m : UMap) :
    ∃ out, processAssets opts isDev h uOk assets m = Except.ok out := by
  by_cases hskip :
      (shouldSkipUpload opts isDev || !(cosClientOf opts) || opts.cos.isNone) = true
  · exact ⟨([], m), by unfold processAssets; rw [if_pos hskip]⟩
  · cases hcos : opts.cos with
    | none => exact absurd (by simp [hcos]) hskip
    | some cos =>
      refine ⟨((uploadLoop opts cos h uOk assets m).1 ++
          rewriteLoop (uploadLoop opts cos h uOk assets m).2 assets,
        (uploadLoop opts cos h uOk assets m).2), ?_⟩
      unfold processAssets
      rw [if_neg hskip, hcos]

theorem uploadsPhase_uploadLoop (opts : PluginOptions) (cos : CosConf)
    (h : String → String) (uOk : String → Bool) :
    ∀ (assets : List (String × String)) (m : UMap),
      uploadsPhase (uploadLoop opts cos h uOk assets m).1 = true := by
  intro assets
  induction assets with
  | nil => intro m; rfl
  | cons a rest ih =>
    intro m
    obtain ⟨filename, content⟩ := a
    by_cases himg : isImageName filename = true
    · by_cases hc : content = ""
      · subst hc; simp [uploadLoop, uploadTryBody, himg, ih]
      · by_cases hok : uOk filename = true
        · simp [uploadLoop, uploadTryBody, himg, hc, hok, uploadsPhase, ih]
        · have hok' : uOk filename = false := by simpa using hok
          simp [uploadLoop, uploadTryBody, himg, hc, hok', uploadsPhase, ih]
    · have himg' : isImageName filename = false := by simpa using himg
      simp [uploadLoop, himg', ih]

theorem rewriteLoop_allUpdate (m : UMap) :
    ∀ assets : List (String × String), (rewriteLoop m assets).all isUpdateEv = true := by
  intro assets
  induction assets with
  | nil => rfl
  | cons a rest ih =>
    obtain ⟨filename, content⟩ := a
    by_cases hs : (isScriptName filename && content != "") = true
    · by_cases hch : (rewriteFold m content).2 = true
      · simp [rewriteLoop, hs, hch, isUpdateEv, ih]
      · simp [rewriteLoop, hs, hch, ih]
    · simp [rewriteLoop, hs, ih]

/-- Claim C4: the trace of every `processAssets` run splits into an upload
phase followed by a replacement phase: the upload phase is a sequence of
complete attempts (each `putObject` call starts only after the previous
awaited promise settled), and everything after it is an `updateAsset`
replacement, so every upload attempt completes or fails before any string
replacement is performed. -/
theorem c4_theorem (opts : PluginOptions) (isDev : Bool) (h : String → String)
    (uOk : String → Bool) (assets : List (String × String)) (m : UMap) :
    ∃ t m' up rp, processAssets opts isDev h uOk assets m = Except.ok (t, m') ∧
      t = up ++ rp ∧ uploadsPhase up = true ∧ rp.all isUpdateEv = true := by
  by_cases hskip :
      (shouldSkipUpload opts isDev || !(cosClientOf opts) || opts.cos.isNone) = true
  · exact ⟨[], m, [], [], by unfold processAssets; rw [if_pos hskip], rfl, rfl, rfl⟩
  · cases hcos : opts.cos with
    | none => exact absurd (by simp [hcos]) hskip
    | some cos =>
      refine ⟨(uploadLoop opts cos h uOk assets m).1 ++
          rewriteLoop (uploadLoop opts cos h uOk assets m).2 assets,
        (uploadLoop opts cos h uOk assets m).2,
        (uploadLoop opts cos h uOk assets m).1,
        rewriteLoop (uploadLoop opts cos h uOk assets m).2 assets, ?_, rfl,
        uploadsPhase_uploadLoop opts cos h uOk assets m,
        rewriteLoop_allUpdate (uploadLoop opts cos h uOk assets m).2 assets⟩
      unfold processAssets
      rw [if_neg hskip, hcos]

theorem countUpStart_uploadLoop_notin (opts : PluginOptions) (cos : CosConf)
    (h : String → String) (uOk : String → Bool) (f : String) :
    ∀ (assets : List (String × String)) (m : UMap), f ∉ assets.map Prod.fst →
      countUpStart f (uploadLoop opts cos h uOk assets m).1 = 0 := by
  intro assets
  induction assets with
  | nil => intro m _; rfl
  | cons a rest ih =>
    intro m hnot
    obtain ⟨filename, content⟩ := a
    have hne : filename ≠ f := by
      intro hEq
      exact hnot (by simp [hEq])
    have hrest : f ∉ rest.map Prod.fst := fun hmem => hnot (by simp [hmem])
    by_cases himg : isImageName filename = true
    · by_cases hc : content = ""
      · subst hc; simp [uploadLoop, uploadTryBody, himg, ih _ hrest]
      · by_cases hok : uOk filename = true
        · simp [uploadLoop, uploadTryBody, himg, hc, hok, countUpStart, hne, ih _ hrest]
        · have hok' : uOk filename = false := by simpa using hok
          simp [uploadLoop, uploadTryBody, himg, hc, hok', countUpStart, hne, ih _ hrest]
    · have himg' : isImageName filename = false := by simpa using himg
      simp [uploadLoop, himg', ih _ hrest]

/-- Claim C3: when the COS upload of an image asset fails, the `try` body
for that file throws (the awaited promise rejects); the per-file `catch`
turns this into a log event and the loop continues with the remaining
assets and the unchanged map; the failed upload is attempted exactly once
(no retry), and the `processAssets` callback still resolves normally. -/
theorem c3_theorem (opts : PluginOptions) (cos : CosConf) (h : String → String)
    (uOk : String → Bool) (isDev : Bool) (f c : String)
    (rest : List (String × String)) (m : UMap)
    (himg : isImageName f = true) (hc : c ≠ "") (hfail : uOk f = false)
    (hnotin : f ∉ rest.map Prod.fst) :
    (uploadTryBody opts cos h (uOk f) f c m).2 = Except.error f ∧
    uploadLoop opts cos h uOk ((f, c) :: rest) m =
      (Ev.upStart f (cosPathOf opts h f c) :: Ev.upErr f :: Ev.errLog f ::
        (uploadLoop opts cos h uOk rest m).1,
       (uploadLoop opts cos h uOk rest m).2) ∧
    countUpStart f (uploadLoop opts cos h uOk ((f, c) :: rest) m).1 = 1 ∧
    (∃ out, processAssets opts isDev h uOk ((f, c) :: rest) m = Except.ok out) := by
  refine ⟨by simp [uploadTryBody, hc, hfail], ?_, ?_, processAssets_ok _ _ _ _ _ _⟩
  · simp [uploadLoop, uploadTryBody, himg, hc, hfail]
  · simp [uploadLoop, uploadTryBody, himg, hc, hfail, countUpStart,
      countUpStart_uploadLoop_notin opts cos h uOk f rest m hnotin]

/-- Claim C3, witness: a failing upload of `a.png` in front of `b.png`. -/
theorem c3_witness :
    isImageName "a.png" = true ∧ "x" ≠ "" ∧ (fun _ : String => false) "a.png" = false ∧
    "a.png" ∉ ([("b.png", "y")].map Prod.fst) ∧
    ((uploadTryBody optsC cosC h0 ((fun _ : String => false) "a.png") "a.png" "x" []).2 =
        Except.error "a.png" ∧
      uploadLoop optsC cosC h0 (fun _ => false) [("a.png", "x"), ("b.png", "y")] [] =
        (Ev.upStart "a.png" (cosPathOf optsC h0 "a.png" "x") :: Ev.upErr "a.png" ::
            Ev.errLog "a.png" ::
            (uploadLoop optsC cosC h0 (fun _ => false) [("b.png", "y")] []).1,
          (uploadLoop optsC cosC h0 (fun _ => false) [("b.png", "y")] []).2) ∧
      countUpStart "a.png"
          (uploadLoop optsC cosC h0 (fun _ => false) [("a.png", "x"), ("b.png", "y")] []).1 = 1 ∧
      (∃ out, processAssets optsC false h0 (fun _ => false) [("a.png", "x"), ("b.png", "y")] [] =
          Except.ok out)) :=
  ⟨by decide, by decide, rfl, by decide,
    c3_theorem optsC cosC h0 (fun _ => false) false "a.png" "x" [("b.png", "y")] []
      (by decide) (by decide) rfl (by decide)⟩

/-- Claim C8: when the options carry an OSS configuration but no COS
configuration, no COS client exists, so the `processAssets` callback
returns at its first guard: no upload is attempted and no asset is touched
(empty event trace, unchanged map). -/
theorem c8_theorem (opts : PluginOptions) (isDev : Bool) (h : String → String)
    (uOk : String → Bool) (assets : List (String × String)) (m : UMap)
    (_hoss : opts.oss.isSome = true) (hcos : opts.cos = none) :
    processAssets opts isDev h uOk assets m = Except.ok ([], m) := by
  have hclient : cosClientOf opts = false := by simp [cosClientOf, hcos]
  simp [processAssets, hclient]

def optsOss : PluginOptions :=
  { cos := none,
    oss := some { accessKeyId := "ak", accessKeySecret := "sk", bucket := "b", region := "r" },
    cdnBaseUrl := none, uploadInDev := none, pathPrefixOpt := none,
    keepFilename := none, verbose := none }

/-- Claim C8, witness: an OSS-only configuration leaves the assets alone. -/
theorem c8_witness :
    optsOss.oss.isSome = true ∧ optsOss.cos = none ∧
    processAssets optsOss false h0 (fun _ => true)
        [("logo.png", "IMG"), ("main.jsx", "const a=\"logo.png\";")] [] =
      Except.ok ([], []) :=
  ⟨rfl, rfl,
    c8_theorem optsOss false h0 (fun _ => true)
      [("logo.png", "IMG"), ("main.jsx", "const a=\"logo.png\";")] [] rfl rfl⟩

/-- Claim C9: the transform hook returns its `TransformContext` argument
unchanged (in particular the asset content `code` is untouched); its only
effect on the map is to bind `resourcePath` to the empty string, leaving
every other key's binding as it was. -/
theorem c9_theorem (m : UMap) (info : TransformCtx) :
    (transformHook m info).2 = info ∧
    ((transformHook m info).2).code = info.code ∧
    (∀ k, mapLookup k (transformHook m info).1 =
      if k = info.resourcePath then some "" else mapLookup k m) := by
  refine ⟨rfl, rfl, ?_⟩
  intro k
  by_cases hk : k = info.resourcePath
  · subst hk; simp [transformHook, mapLookup_set_self]
  · simp [transformHook, mapLookup_set_ne _ _ _ _ hk, hk]

theorem rewriteFoldLogAux_fst (v : Bool) :
    ∀ (m : UMap) (c : String) (ch : Bool) (logs : List String),
      (rewriteFoldLogAux v m c ch logs).1 = rewriteFoldAux m c ch := by
  intro m
  induction m with
  | nil => intros; rfl
  | cons p rest ih =>
    intro c ch logs
    obtain ⟨imgPath, cdnUrl⟩ := p
    by_cases hv : cdnUrl = ""
    · simp [rewriteFoldLogAux, rewriteFoldAux, hv, ih]
    · by_cases heq : replaceRefs (basename imgPath) cdnUrl c = c
      · simp [rewriteFoldLogAux, rewriteFoldAux, hv, heq, ih]
      · simp [rewriteFoldLogAux, rewriteFoldAux, hv, heq, ih]

/-- Claim C5: the replacement step is a pure function of the map entries
and the script content.  Any two runs of the loop of lines 225-248 over
the same `imageUrlMap` and the same content — in particular runs under
different `verbose` settings, the only other input the loop reads — yield
the same rewritten content and the same `hasChanges` flag. -/
theorem c5_theorem (v₁ v₂ : Bool) (m : UMap) (c : String) :
    (rewriteFoldLog v₁ m c).1 = rewriteFold m c ∧
    (rewriteFoldLog v₂ m c).1 = rewriteFold m c ∧
    (rewriteFoldLog v₁ m c).1.1 = (rewriteFoldLog v₂ m c).1.1 ∧
    (rewriteFoldLog v₁ m c).1.2 = (rewriteFoldLog v₂ m c).1.2 := by
  have h₁ : (rewriteFoldLog v₁ m c).1 = rewriteFold m c :=
    rewriteFoldLogAux_fst v₁ m c false []
  have h₂ : (rewriteFoldLog v₂ m c).1 = rewriteFold m c :=
    rewriteFoldLogAux_fst v₂ m c false []
  exact ⟨h₁, h₂, by rw [h₁, h₂], by rw [h₁, h₂]⟩

theorem countUpStart_append (f : String) (a b : List Ev) :
    countUpStart f (a ++ b) = countUpStart f a + countUpStart f b := by
  induction a with
  | nil => simp [countUpStart]
  | cons e rest ih => cases e <;> simp [countUpStart, ih, Nat.add_assoc]

theorem countUpStart_rewriteLoop (f : String) (m : UMap) :
    ∀ assets : List (String × String), countUpStart f (rewriteLoop m assets) = 0 := by
  intro assets
  induction assets with
  | nil => rfl
  | cons a rest ih =>
    obtain ⟨filename, content⟩ := a
    by_cases hs : (isScriptName filename && content != "") = true
    · by_cases hch : (rewriteFold m content).2 = true
      · simp [rewriteLoop, hs, hch, countUpStart, ih]
      · simp [rewriteLoop, hs, hch, ih]
    · simp [rewriteLoop, hs, ih]

theorem countUpStart_uploadLoop_mem (opts : PluginOptions) (cos : CosConf)
    (h : String → String) (uOk : String → Bool) (f c : String) :
    ∀ (assets : List (String × String)) (m : UMap), (f, c) ∈ assets →
      (assets.map Prod.fst).Nodup →
      countUpStart f (uploadLoop opts cos h uOk assets m).1 =
        (if isImageName f = true ∧ c ≠ "" then 1 else 0) := by
  intro assets
  induction assets with
  | nil => intro m hmem _; exact absurd hmem (List.not_mem_nil _)
  | cons a rest ih =>
    intro m hmem hnodup
    obtain ⟨g, cg⟩ := a
    have hnodup' : (rest.map Prod.fst).Nodup := (List.nodup_cons.mp hnodup).2
    have hgnotin : g ∉ rest.map Prod.fst := (List.nodup_cons.mp hnodup).1
    rcases List.mem_cons.mp hmem with hhead | hrest
    · obtain ⟨hf, hcg⟩ := Prod.mk.injEq .. ▸ hhead
      subst hf; subst hcg
      have hnotin : f ∉ rest.map Prod.fst := hgnotin
      by_cases himg : isImageName f = true
      · by_cases hc : c = ""
        · subst hc
          rw [if_neg (by simp)]
          simp [uploadLoop, uploadTryBody, himg,
            countUpStart_uploadLoop_notin opts cos h uOk f rest m hnotin]
        · rw [if_pos ⟨himg, hc⟩]
          by_cases hok : uOk f = true
          · simp [uploadLoop, uploadTryBody, himg, hc, hok, countUpStart,
              countUpStart_uploadLoop_notin opts cos h uOk f rest _ hnotin]
          · have hok' : uOk f = false := by simpa using hok
            simp [uploadLoop, uploadTryBody, himg, hc, hok', countUpStart,
              countUpStart_uploadLoop_notin opts cos h uOk f rest _ hnotin]
      · have himg' : isImageName f = false := by simpa using himg
        rw [if_neg (by simp [himg'])]
        simp [uploadLoop, himg',
          countUpStart_uploadLoop_notin opts cos h uOk f rest m hnotin]
    · have hgf : g ≠ f := by
        intro hEq
        subst hEq
        exact hgnotin (List.mem_map_of_mem Prod.fst hrest)
      by_cases himg : isImageName g = true
      · by_cases hc : cg = ""
        · subst hc; simp [uploadLoop, uploadTryBody, himg, ih _ hrest hnodup']
        · by_cases hok : uOk g = true
          · simp [uploadLoop, uploadTryBody, himg, hc, hok, countUpStart, hgf,
              ih _ hrest hnodup']
          · have hok' : uOk g = false := by simpa using hok
            simp [uploadLoop, uploadTryBody, himg, hc, hok', countUpStart, hgf,
              ih _ hrest hnodup']
      · have himg' : isImageName g = false := by simpa using himg
        simp [uploadLoop, himg', ih _ hrest hnodup']

/-- Claim C6: when COS is configured and the upload is not skipped, every
emitted asset whose filename matches the image extensions and whose
content is non-empty triggers exactly one `putObject` call in the build
pass, and an asset with falsy content (or a non-image name) triggers
none. -/
theorem c6_theorem (opts : PluginOptions) (cos : CosConf) (isDev : Bool)
    (h : String → String) (uOk : String → Bool)
    (assets : List (String × String)) (m : UMap) (f c : String)
    (hcos : opts.cos = some cos) (hskip : shouldSkipUpload opts isDev = false)
    (hmem : (f, c) ∈ assets) (hnodup : (assets.map Prod.fst).Nodup) :
    ∃ t m', processAssets opts isDev h uOk assets m = Except.ok (t, m') ∧
      countUpStart f t = (if isImageName f = true ∧ c ≠ "" then 1 else 0) := by
  have hguard : (shouldSkipUpload opts isDev || !(cosClientOf opts) || opts.cos.isNone) = false := by
    simp [hskip, cosClientOf, hcos]
  refine ⟨(uploadLoop opts cos h uOk assets m).1 ++
      rewriteLoop (uploadLoop opts cos h uOk assets m).2 assets,
    (uploadLoop opts cos h uOk assets m).2, ?_, ?_⟩
  · unfold processAssets
    rw [if_neg (by simp [hguard]), hcos]
  · rw [countUpStart_append, countUpStart_rewriteLoop,
      countUpStart_uploadLoop_mem opts cos h uOk f c assets m hmem hnodup]
    simp

/-- Claim C6, witness: a single non-empty image asset is uploaded once. -/
theorem c6_witness :
    optsC.cos = some cosC ∧ shouldSkipUpload optsC false = false ∧
    ("logo.png", "IMG") ∈ [("logo.png", "IMG")] ∧
    (([("logo.png", "IMG")].map Prod.fst).Nodup) ∧
    (∃ t m', processAssets optsC false h0 (fun _ => true) [("logo.png", "IMG")] [] =
        Except.ok (t, m') ∧
      countUpStart "logo.png" t =
        (if isImageName "logo.png" = true ∧ "IMG" ≠ "" then 1 else 0)) :=
  ⟨rfl, rfl, by decide, by decide,
    c6_theorem optsC cosC false h0 (fun _ => true) [("logo.png", "IMG")] [] "logo.png" "IMG"
      rfl rfl (by decide) (by decide)⟩

theorem runTransforms_values :
    ∀ (infos : List TransformCtx) (m : UMap), (∀ p ∈ m, p.2 = "") →
      ∀ p ∈ runTransforms infos m, p.2 = "" := by
  intro infos
  induction infos with
  | nil => intro m hm; exact hm
  | cons i is ih =>
    intro m hm
    show ∀ p ∈ runTransforms is (transformHook m i).1, p.2 = ""
    refine ih _ ?_
    intro p hp
    rcases mem_mapSet _ _ _ _ hp with hEq | hmem
    · rw [hEq]
    · exact hm p hmem

theorem recordUrl_mem (f url : String) (m : UMap) (p : String × String)
    (hp : p ∈ recordUrl f url m) : p ∈ m ∨ p.2 = url := by
  unfold recordUrl at hp
  cases hfind : findMatch f m with
  | some orig =>
    rw [hfind] at hp
    rcases mem_mapSet _ _ _ _ hp with hEq | hmem
    · exact Or.inr (by rw [hEq])
    · exact Or.inl hmem
  | none =>
    rw [hfind] at hp
    rcases mem_mapSet _ _ _ _ hp with hEq | hmem
    · exact Or.inr (by rw [hEq])
    · exact Or.inl hmem

theorem uploadLoop_values (opts : PluginOptions) (cos : CosConf) (h : String → String)
    (uOk : String → Bool) :
    ∀ (assets : List (String × String)) (m : UMap) (p : String × String),
      p ∈ (uploadLoop opts cos h uOk assets m).2 →
      p ∈ m ∨ ∃ cp, p.2 = cdnUrlOf opts cos cp := by
  intro assets
  induction assets with
  | nil => intro m p hp; exact Or.inl hp
  | cons a rest ih =>
    intro m p hp
    obtain ⟨filename, content⟩ := a
    by_cases himg : isImageName filename = true
    · by_cases hc : content = ""
      · subst hc
        simp only [uploadLoop, uploadTryBody, himg, if_true, beq_self_eq_true, if_pos] at hp
        exact ih _ _ hp
      · by_cases hok : uOk filename = true
        · simp only [uploadLoop, uploadTryBody, himg, hok, hc, if_true, beq_iff_eq,
            if_neg, if_false] at hp
          rcases ih _ _ hp with hin | hcdn
          · rcases recordUrl_mem _ _ _ _ hin with hin' | hurl
            · exact Or.inl hin'
            · exact Or.inr ⟨cosPathOf opts h filename content, hurl⟩
          · exact Or.inr hcdn
        · have hok' : uOk filename = false := by simpa using hok
          simp only [uploadLoop, uploadTryBody, himg, hok', hc, if_true, beq_iff_eq,
            if_neg, if_false] at hp
          exact ih _ _ hp
    · have himg' : isImageName filename = false := by simpa using himg
      simp only [uploadLoop, himg', Bool.false_eq_true, if_false] at hp
      exact ih _ _ hp

theorem rewriteFoldAux_filter :
    ∀ (m : UMap) (c : String) (ch : Bool),
      rewriteFoldAux m c ch = rewriteFoldAux (List.filter (fun p => p.2 != "") m) c ch := by
  intro m
  induction m with
  | nil => intros; rfl
  | cons p rest ih =>
    intro c ch
    obtain ⟨k, v⟩ := p
    by_cases hv : v = ""
    · subst hv; simp [rewriteFoldAux, List.filter_cons, ih]
    · by_cases heq : replaceRefs (basename k) v c = c
      · simp [rewriteFoldAux, List.filter_cons, hv, heq, ih]
      · simp [rewriteFoldAux, List.filter_cons, hv, heq, ih]

/-- Claim C7: the `imageUrlMap` lives within one build pass: it starts
empty at plugin setup; after any sequence of transform-hook calls every
stored value is the empty string; after the `processAssets` callback every
stored value is either the empty string or a CDN URL built for an uploaded
COS path; and the replacement step reads only entries whose CDN URL is
non-empty. -/
theorem c7_theorem (infos : List TransformCtx) (opts : PluginOptions) (isDev : Bool)
    (h : String → String) (uOk : String → Bool) (assets : List (String × String)) :
    initialImageUrlMap = [] ∧
    (∀ p ∈ runTransforms infos initialImageUrlMap, p.2 = "") ∧
    (∀ t m', processAssets opts isDev h uOk assets (runTransforms infos initialImageUrlMap)
        = Except.ok (t, m') →
      ∀ p ∈ m', p.2 = "" ∨ ∃ cos cp, opts.cos = some cos ∧ p.2 = cdnUrlOf opts cos cp) ∧
    (∀ (m : UMap) (c : String),
      rewriteFold m c = rewriteFold (List.filter (fun p => p.2 != "") m) c) := by
  have hinit : ∀ p ∈ runTransforms infos initialImageUrlMap, p.2 = "" :=
    runTransforms_values infos initialImageUrlMap (by simp [initialImageUrlMap])
  refine ⟨rfl, hinit, ?_, fun m c => rewriteFoldAux_filter m c false⟩
  intro t m' hpe p hp
  by_cases hskip :
      (shouldSkipUpload opts isDev || !(cosClientOf opts) || opts.cos.isNone) = true
  · unfold processAssets at hpe
    rw [if_pos hskip] at hpe
    simp only [Except.ok.injEq, Prod.mk.injEq] at hpe
    obtain ⟨-, hm⟩ := hpe
    exact Or.inl (hinit p (hm ▸ hp))
  · cases hcos : opts.cos with
    | none => exact absurd (by simp [hcos]) hskip
    | some cos =>
      unfold processAssets at hpe
      rw [if_neg hskip, hcos] at hpe
      simp only [Except.ok.injEq, Prod.mk.injEq] at hpe
      obtain ⟨-, hm⟩ := hpe
      rcases uploadLoop_values opts cos h uOk assets _ p (hm ▸ hp) with hin | ⟨cp, hcp⟩
      · exact Or.inl (hinit p hin)
      · exact Or.inr ⟨cos, cp, rfl, hcp⟩

theorem replaceScanFuel_noMatch (pat : List CPat) (url : List Char) :
    ∀ (fuel : Nat) (s : List Char), hasMatchFuel pat fuel s = false →
      replaceScanFuel pat url fuel s = s := by
  intro fuel
  induction fuel with
  | zero => intro s _; rfl
  | succ n ih =>
    intro s hnm
    cases s with
    | nil => rfl
    | cons c rest =>
      cases hm : matchBody pat c rest with
      | some k =>
        rw [hasMatchFuel, hm] at hnm
        simp at hnm
      | none =>
        rw [hasMatchFuel, hm] at hnm
        simp only [Option.isSome_none, Bool.false_or] at hnm
        simp [replaceScanFuel, hm, ih rest hnm]

theorem replaceRefs_noMatch (fname url c : String)
    (h : hasMatchStr fname c = false) : replaceRefs fname url c = c := by
  unfold replaceRefs
  rw [replaceScanFuel_noMatch _ _ _ _ h]

theorem rewriteFoldAux_noMatch :
    ∀ (m : UMap) (c : String) (ch : Bool),
      (∀ p ∈ m, p.2 ≠ "" → hasMatchStr (basename p.1) c = false) →
      rewriteFoldAux m c ch = (c, ch) := by
  intro m
  induction m with
  | nil => intros; rfl
  | cons p rest ih =>
    intro c ch hno
    obtain ⟨k, v⟩ := p
    have hrest : ∀ p ∈ rest, p.2 ≠ "" → hasMatchStr (basename p.1) c = false :=
      fun p hp => hno p (List.mem_cons_of_mem _ hp)
    by_cases hv : v = ""
    · subst hv; simp [rewriteFoldAux, ih _ _ hrest]
    · have hmatch : hasMatchStr (basename k) c = false :=
        hno (k, v) (List.mem_cons_self _ _) hv
      have hrepl : replaceRefs (basename k) v c = c := replaceRefs_noMatch _ _ _ hmatch
      simp [rewriteFoldAux, hv, hrepl, ih _ _ hrest]

theorem update_mem_rewriteLoop (m : UMap) (f c' : String) :
    ∀ assets : List (String × String), Ev.update f c' ∈ rewriteLoop m assets →
      ∃ content, (f, content) ∈ assets ∧ (isScriptName f && content != "") = true ∧
        rewriteFold m content = (c', true) := by
  intro assets
  induction assets with
  | nil => intro hmem; exact absurd hmem (List.not_mem_nil _)
  | cons a rest ih =>
    intro hmem
    obtain ⟨g, cg⟩ := a
    by_cases hs : (isScriptName g && cg != "") = true
    · by_cases hch : (rewriteFold m cg).2 = true
      · simp only [rewriteLoop, hs, if_true, hch] at hmem
        rcases List.mem_cons.mp hmem with hhead | htail
        · obtain ⟨hf, hc'⟩ := Ev.update.injEq .. ▸ hhead
          subst hf
          exact ⟨cg, List.mem_cons_self _ _, hs, Prod.ext hc'.symm hch⟩
        · obtain ⟨content, hcm, hsc, hfold⟩ := ih htail
          exact ⟨content, List.mem_cons_of_mem _ hcm, hsc, hfold⟩
      · simp only [rewriteLoop, hs, if_true, hch] at hmem
        obtain ⟨content, hcm, hsc, hfold⟩ := ih (by simpa [hch] using hmem)
        exact ⟨content, List.mem_cons_of_mem _ hcm, hsc, hfold⟩
    · simp only [rewriteLoop, hs, if_false] at hmem
      obtain ⟨content, hcm, hsc, hfold⟩ := ih (by simpa [hs] using hmem)
      exact ⟨content, List.mem_cons_of_mem _ hcm, hsc, hfold⟩

theorem update_notMem_uploadLoop (opts : PluginOptions) (cos : CosConf)
    (h : String → String) (uOk : String → Bool) (f c' : String) :
    ∀ (assets : List (String × String)) (m : UMap),
      Ev.update f c' ∉ (uploadLoop opts cos h uOk assets m).1 := by
  intro assets
  induction assets with
  | nil => intro m hmem; exact absurd hmem (List.not_mem_nil _)
  | cons a rest ih =>
    intro m hmem
    obtain ⟨g, cg⟩ := a
    by_cases himg : isImageName g = true
    · by_cases hc : cg = ""
      · subst hc
        exact ih _ (by simpa [uploadLoop, uploadTryBody, himg] using hmem)
      · by_cases hok : uOk g = true
        · exact ih _ (by simpa [uploadLoop, uploadTryBody, himg, hc, hok] using hmem)
        · have hok' : uOk g = false := by simpa using hok
          exact ih _ (by simpa [uploadLoop, uploadTryBody, himg, hc, hok'] using hmem)
    · have himg' : isImageName g = false := by simpa using himg
      exact ih _ (by simpa [uploadLoop, himg'] using hmem)

theorem nodup_keys_eq :
    ∀ (l : List (String × String)), (l.map Prod.fst).Nodup →
      ∀ (f a b : String), (f, a) ∈ l → (f, b) ∈ l → a = b := by
  intro l
  induction l with
  | nil => intro _ f a b ha; exact absurd ha (List.not_mem_nil _)
  | cons p rest ih =>
    intro hnodup f a b ha hb
    obtain ⟨k, v⟩ := p
    have h1 : k ∉ rest.map Prod.fst := (List.nodup_cons.mp hnodup).1
    have h2 : (rest.map Prod.fst).Nodup := (List.nodup_cons.mp hnodup).2
    rcases List.mem_cons.mp ha with hah | hat
    · obtain ⟨hfk, hav⟩ := Prod.mk.injEq .. ▸ hah
      rcases List.mem_cons.mp hb with hbh | hbt
      · obtain ⟨-, hbv⟩ := Prod.mk.injEq .. ▸ hbh
        rw [hav, hbv]
      · exact absurd (hfk ▸ List.mem_map_of_mem Prod.fst hbt) h1
    · rcases List.mem_cons.mp hb with hbh | hbt
      · obtain ⟨hfk, -⟩ := Prod.mk.injEq .. ▸ hbh
        exact absurd (hfk ▸ List.mem_map_of_mem Prod.fst hat) h1
      · exact ih h2 f a b hat hbt

/-- Claim C10: `compilation.updateAsset` fires for a script asset only
when the replacement fold changed its content — the `hasChanges` flag of
the fold over the final map is set, and the updated content is the fold's
output.  A script file in which no map entry with a non-empty CDN URL
matches any quoted reference is never updated: no update event is emitted
for it and the fold leaves its content byte-for-byte identical. -/
theorem c10_theorem (opts : PluginOptions) (isDev : Bool) (h : String → String)
    (uOk : String → Bool) (assets : List (String × String)) (m : UMap) (f c : String)
    (hmem : (f, c) ∈ assets) (hnodup : (assets.map Prod.fst).Nodup) :
    ∃ t m', processAssets opts isDev h uOk assets m = Except.ok (t, m') ∧
      (∀ c', Ev.update f c' ∈ t →
        c' = (rewriteFold m' c).1 ∧ (rewriteFold m' c).2 = true) ∧
      ((∀ p ∈ m', p.2 ≠ "" → hasMatchStr (basename p.1) c = false) →
        (rewriteFold m' c).1 = c ∧ ∀ c', Ev.update f c' ∉ t) := by
  by_cases hskip :
      (shouldSkipUpload opts isDev || !(cosClientOf opts) || opts.cos.isNone) = true
  · refine ⟨[], m, by unfold processAssets; rw [if_pos hskip], ?_, ?_⟩
    · intro c' hc'; exact absurd hc' (List.not_mem_nil _)
    · intro hno
      refine ⟨?_, fun c' => List.not_mem_nil _⟩
      rw [show rewriteFold m c = (c, false) from rewriteFoldAux_noMatch m c false hno]
  · cases hcos : opts.cos with
    | none => exact absurd (by simp [hcos]) hskip
    | some cos =>
      refine ⟨(uploadLoop opts cos h uOk assets m).1 ++
          rewriteLoop (uploadLoop opts cos h uOk assets m).2 assets,
        (uploadLoop opts cos h uOk assets m).2,
        by unfold processAssets; rw [if_neg hskip, hcos], ?_, ?_⟩
      · intro c' hc'
        rcases List.mem_append.mp hc' with hup | hrw
        · exact absurd hup (update_notMem_uploadLoop opts cos h uOk f c' assets m)
        · obtain ⟨content, hcm, -, hfold⟩ :=
            update_mem_rewriteLoop (uploadLoop opts cos h uOk assets m).2 f c' assets hrw
          have hcc : content = c := nodup_keys_eq assets hnodup f content c hcm hmem
          rw [hcc] at hfold
          exact ⟨by rw [hfold], by rw [hfold]⟩
      · intro hno
        have hfold : rewriteFold (uploadLoop opts cos h uOk assets m).2 c = (c, false) :=
          rewriteFoldAux_noMatch _ c false hno
        refine ⟨by rw [hfold], ?_⟩
        intro c' hc'
        rcases List.mem_append.mp hc' with hup | hrw
        · exact absurd hup (update_notMem_uploadLoop opts cos h uOk f c' assets m)
        · obtain ⟨content, hcm, -, hfold'⟩ :=
            update_mem_rewriteLoop (uploadLoop opts cos h uOk assets m).2 f c' assets hrw
          have hcc : content = c := nodup_keys_eq assets hnodup f content c hcm hmem
          rw [hcc, hfold] at hfold'
          exact absurd (congrArg Prod.snd hfold') (by simp)

/-- Claim C10, witness: a script asset with no image references is left
untouched. -/
theorem c10_witness :
    ("app.jsx", "no references here") ∈ [("app.jsx", "no references here")] ∧
    (([("app.jsx", "no references here")].map Prod.fst).Nodup) ∧
    (∃ t m', processAssets optsC false h0 (fun _ => true)
        [("app.jsx", "no references here")] [] = Except.ok (t, m') ∧
      (∀ c', Ev.update "app.jsx" c' ∈ t →
        c' = (rewriteFold m' "no references here").1 ∧
        (rewriteFold m' "no references here").2 = true) ∧
      ((∀ p ∈ m', p.2 ≠ "" →
          hasMatchStr (basename p.1) "no references here" = false) →
        (rewriteFold m' "no references here").1 = "no references here" ∧
        ∀ c', Ev.update "app.jsx" c' ∉ t)) :=
  ⟨by decide, by decide,
    c10_theorem optsC false h0 (fun _ => true) [("app.jsx", "no references here")] []
      "app.jsx" "no references here" (by decide) (by decide)⟩

end UploadImg
